import Mathlib

/-!
Formal model of the squirc library (src/mod.ts), an SVG path generator for
superellipse ("squircle") shapes.

The TypeScript source is embedded shallowly:

* JavaScript numbers are modelled as real numbers; `Math.pow` is `Real.rpow`,
  `Math.tan`/`Math.cos`/`Math.sin` are the real trigonometric functions, and
  the JavaScript remainder operator `%` (truncating, sign of the dividend) is
  modelled by `jsRem` below.
* The scalar exponent of `squirc` may be the JavaScript value `Infinity`
  (the source guards with `isFinite`); a scalar exponent is therefore
  modelled as `Option ℝ`, `none` standing for `Infinity`.
* The produced SVG path string is modelled as a list of path commands
  (`PathCmd`): the string is a rendering of exactly this command sequence
  (`M` = `move`, each coordinate pair after an `L` = one `line`, each
  7-tuple after an `A` = one `arc`, `Z` = `close`).  The two constant `0`
  entries of each arc command (x-axis rotation and large-arc flag) are
  omitted from the model since the source always writes literal zeros.
* The module-global mutable `accuracy` is passed explicitly as the final
  argument `acc` of each generation function.
* The two recursive angle-reduction evaluators (`squirc_cos` and
  `hybridial_squircular_cos`) share the identical reflection skeleton
  (truncating remainder by 2π, reflection of negative angles, reflection of
  quadrants 2–4) around a first-quadrant core; the skeleton is the fuel
  functional `reflCos`.  On every real input the recursion depth is at most
  4, so fuel 8 never runs out.
-/

open Real

namespace Squirc

/-- Two-dimensional point (class `Point` in mod.ts), also used as per-axis
exponent pair and as a size. -/
structure Pt where
  x : ℝ
  y : ℝ

/-- Componentwise addition (`add` in mod.ts). -/
def add (p q : Pt) : Pt := ⟨p.x + q.x, p.y + q.y⟩

/-- Componentwise subtraction (`subtract` in mod.ts). -/
def subtract (p q : Pt) : Pt := ⟨p.x - q.x, p.y - q.y⟩

/-- Standard 2D rotation (`rotate` in mod.ts), clockwise-positive in screen
coordinates. -/
noncomputable def rotate (p : Pt) (angle : ℝ) : Pt :=
  ⟨p.x * Real.cos angle - p.y * Real.sin angle,
   p.x * Real.sin angle + p.y * Real.cos angle⟩

/-- One command of the produced SVG path string. -/
inductive PathCmd where
  | move (p : Pt)
  | line (p : Pt)
  | arc (rx ry : ℝ) (sweep : Bool) (p : Pt)
  | close

/-- Truncation of a real number toward zero (the rounding used by the
JavaScript remainder operator). -/
noncomputable def rtrunc (x : ℝ) : ℤ := if 0 ≤ x then ⌊x⌋ else ⌈x⌉

/-- The JavaScript remainder operator `a % b`: remainder with the sign of
the dividend, `a - b * trunc (a / b)`. -/
noncomputable def jsRem (a b : ℝ) : ℝ := a - b * rtrunc (a / b)

/-- Shared angle-reduction skeleton of `squirc_cos` and
`hybridial_squircular_cos` in mod.ts: reduce the angle with `% (2*Math.PI)`,
reflect a negative angle (`cos` is even), reflect angles beyond π/2 through
`-cos (π - angle)`, and evaluate the first-quadrant core `g` otherwise.  The
source expresses this by recursive self-calls (each of which performs the
remainder reduction again); `fuel` bounds that recursion depth, which never
exceeds 4 on real inputs. -/
noncomputable def reflCos (g : ℝ → ℝ) : ℕ → ℝ → ℝ
  | 0, _ => 0
  | n + 1, angle =>
    if jsRem angle (2 * π) < 0 then reflCos g n (-jsRem angle (2 * π))
    else if jsRem angle (2 * π) > π / 2 then -reflCos g n (π - jsRem angle (2 * π))
    else g (jsRem angle (2 * π))

/-- First-quadrant closed form of `squirc_cos` in mod.ts:
`1 / Math.pow(1 + Math.pow(Math.tan(angle), exponent), 1/exponent)`. -/
noncomputable def squircCosCore (e : ℝ) (a : ℝ) : ℝ :=
  1 / (1 + Real.tan a ^ e) ^ (1 / e)

/-- Generalized cosine of the isotropic superellipse (`squirc_cos` in
mod.ts). -/
noncomputable def squirc_cos (angle e : ℝ) : ℝ := reflCos (squircCosCore e) 8 angle

/-- Generalized sine of the isotropic superellipse (`squirc_sin` in mod.ts):
`squirc_cos(Math.PI/2 - angle, exponent)`. -/
noncomputable def squirc_sin (angle e : ℝ) : ℝ := squirc_cos (π / 2 - angle) e

/-- Newton residual `f(x) = x^ex + (t*x)^ey - 1` from
`hybridial_squircular_cos` in mod.ts, where `t = Math.tan(angle)`. -/
noncomputable def newton_f (t ex ey x : ℝ) : ℝ := x ^ ex + (t * x) ^ ey - 1

/-- Newton derivative
`f'(x) = ex * x^(ex-1) + ey * t^ey * x^(ey-1)` from mod.ts. -/
noncomputable def newton_df (t ex ey x : ℝ) : ℝ :=
  ex * x ^ (ex - 1) + ey * t ^ ey * x ^ (ey - 1)

/-- The Newton iteration of `hybridial_squircular_cos` in mod.ts: initial
guess `x₀ = 1`, update `x ← x - f(x)/f'(x)`. -/
noncomputable def newtonIter (t ex ey : ℝ) : ℕ → ℝ
  | 0 => 1
  | n + 1 =>
    newtonIter t ex ey n - newton_f t ex ey (newtonIter t ex ey n) / newton_df t ex ey (newtonIter t ex ey n)

/-- First-quadrant value of the anisotropic cosine: the result of the
`for (let i = 0; i < 5; i++)` Newton loop in mod.ts.  (The source's final
`isNaN(x) ? 1 : x` guard has no counterpart over the reals, where division
by zero yields 0 rather than NaN/Infinity.) -/
noncomputable def hybridialCosCore (ex ey : ℝ) (a : ℝ) : ℝ := newtonIter (Real.tan a) ex ey 5

/-- Generalized cosine of the anisotropic superellipse
(`hybridial_squircular_cos` in mod.ts). -/
noncomputable def hybridial_squircular_cos (angle : ℝ) (e : Pt) : ℝ :=
  reflCos (hybridialCosCore e.x e.y) 8 angle

/-- Generalized sine of the anisotropic superellipse
(`hybridial_squircular_sin` in mod.ts):
`hybridial_squircular_cos(Math.PI/2 - angle, new Point(exponent.y, exponent.x))`. -/
noncomputable def hybridial_squircular_sin (angle : ℝ) (e : Pt) : ℝ :=
  hybridial_squircular_cos (π / 2 - angle) ⟨e.y, e.x⟩

/-- Explicit first-quadrant form of the anisotropic superellipse
(`hybridial_squircular_quadrant_explicit` in mod.ts):
`Math.pow(1 - Math.pow(x, exponent.x), 1/exponent.y)`. -/
noncomputable def hybridial_squircular_quadrant_explicit (x : ℝ) (e : Pt) : ℝ :=
  (1 - x ^ e.x) ^ (1 / e.y)

/-- Indices visited by the ascending quadrant loops of `hybridial_squircle`
in mod.ts, `for (let i = 1; i < accuracy/4; i++)` (real division): exactly
the integers `i` with `1 ≤ i` and `i < acc/4`, i.e. `1, …, ⌈acc/4⌉ - 1`.
The lemma `mem_ascIdx` certifies this against the loop guard. -/
def ascIdx (acc : ℕ) : List ℕ := List.range' 1 ((acc + 3) / 4 - 1)

/-- Indices visited by the descending quadrant loops of `hybridial_squircle`
in mod.ts, `for (let i = Math.floor(accuracy/4); i >= 1; i--)`:
`⌊acc/4⌋, …, 1`. -/
def descIdx (acc : ℕ) : List ℕ := (List.range' 1 (acc / 4)).reverse

/-- The membership in `ascIdx` is exactly the loop guard `1 ≤ i < acc/4` of
the source (with the real comparison `i < acc/4` written as `4*i < acc`). -/
theorem mem_ascIdx {acc i : ℕ} : i ∈ ascIdx acc ↔ 1 ≤ i ∧ 4 * i < acc := by
  simp only [ascIdx, List.mem_range'_1]
  omega

/-- The membership in `descIdx` is exactly the guard `1 ≤ i ≤ ⌊acc/4⌋` of the
descending loops. -/
theorem mem_descIdx {acc i : ℕ} : i ∈ descIdx acc ↔ 1 ≤ i ∧ i ≤ acc / 4 := by
  simp only [descIdx, List.mem_reverse, List.mem_range'_1]
  omega

/-- The isotropic path builder (`squirc_simple` in mod.ts).  `bb` and `ec`
are the (possibly reversed) bounding-box corner and edge-midpoint arrays
computed by `squirc`; `acc` is the module-global `accuracy`. -/
noncomputable def squirc_simple (exponent : Option ℝ) (size center : Pt) (rotation : ℝ)
    (clockwise : Bool) (bb ec : List Pt) (acc : ℕ) : List PathCmd :=
  match exponent with
  | none =>
      -- base case square: `M bb[0] L bb[1] bb[2] bb[3] Z`
      PathCmd.move (bb.getD 0 ⟨0, 0⟩) :: (bb.drop 1).map PathCmd.line ++ [PathCmd.close]
  | some e =>
      if e = 1 then
        -- base case diamond: `M ec[0] L ec[1] ec[2] ec[3] Z`
        PathCmd.move (ec.getD 0 ⟨0, 0⟩) :: (ec.drop 1).map PathCmd.line ++ [PathCmd.close]
      else if e = 2 then
        -- base case circle: two arcs, and no `Z` is appended in the source
        [PathCmd.move (ec.getD 0 ⟨0, 0⟩),
         PathCmd.arc (size.x / 2) (size.y / 2) clockwise (ec.getD 2 ⟨0, 0⟩),
         PathCmd.arc (size.x / 2) (size.y / 2) clockwise (ec.getD 0 ⟨0, 0⟩)]
      else
        -- conventional superellipse, sampled at angles π/2 ∓ i·(2π/acc)
        PathCmd.move (if clockwise then ec.getD 0 ⟨0, 0⟩ else ec.getD 3 ⟨0, 0⟩) ::
        (List.range' 1 (acc - 1)).map (fun (i : ℕ) =>
          PathCmd.line (add (rotate
            ⟨size.x / 2 * squirc_cos
                (if clockwise then π / 2 - (i : ℝ) * (2 * π / acc) else π / 2 + (i : ℝ) * (2 * π / acc)) e,
             size.y / 2 * (-squirc_sin
                (if clockwise then π / 2 - (i : ℝ) * (2 * π / acc) else π / 2 + (i : ℝ) * (2 * π / acc)) e)⟩
            rotation) center))
        ++ [PathCmd.close]

/-- The anisotropic path builder (`hybridial_squircle` in mod.ts). -/
noncomputable def hybridial_squircle (exponent : Pt) (size center : Pt) (rotation : ℝ)
    (clockwise : Bool) (bb ec : List Pt) (acc : ℕ) : List PathCmd :=
  PathCmd.move (if clockwise then ec.getD 0 ⟨0, 0⟩ else ec.getD 3 ⟨0, 0⟩) ::
  (if 3 / 2 ≤ exponent.x ∧ 3 / 2 ≤ exponent.y then
    -- angular regime: `exponent.x >= 1.5 && exponent.y >= 1.5`
    (List.range' 1 (acc - 1)).map (fun (i : ℕ) =>
      PathCmd.line (add (rotate
        ⟨size.x / 2 * hybridial_squircular_cos
            (if clockwise then π / 2 - (i : ℝ) * (2 * π / acc) else π / 2 + (i : ℝ) * (2 * π / acc)) exponent,
         size.y / 2 * (-hybridial_squircular_sin
            (if clockwise then π / 2 - (i : ℝ) * (2 * π / acc) else π / 2 + (i : ℝ) * (2 * π / acc)) exponent)⟩
        rotation) center))
  else
    -- low-exponent regime: explicit quadrant walk;
    -- `if (exponent.x < exponent.y) { exponent = new Point(exponent.y, exponent.x); rotation += Math.PI/2; }`
    (ascIdx acc).map (fun (i : ℕ) =>
      PathCmd.line (add (rotate
        ⟨(if clockwise then (1 : ℝ) else -1) * (size.x / 2) * ((i : ℝ) * (4 / acc)),
         -(size.y / 2) * hybridial_squircular_quadrant_explicit ((i : ℝ) * (4 / acc))
             (if exponent.x < exponent.y then ⟨exponent.y, exponent.x⟩ else exponent)⟩
        (if exponent.x < exponent.y then rotation + π / 2 else rotation)) center)) ++
    (descIdx acc).map (fun (i : ℕ) =>
      PathCmd.line (add (rotate
        ⟨(if clockwise then (1 : ℝ) else -1) * (size.x / 2) * ((i : ℝ) * (4 / acc)),
         size.y / 2 * hybridial_squircular_quadrant_explicit ((i : ℝ) * (4 / acc))
             (if exponent.x < exponent.y then ⟨exponent.y, exponent.x⟩ else exponent)⟩
        (if exponent.x < exponent.y then rotation + π / 2 else rotation)) center)) ++
    (ascIdx acc).map (fun (i : ℕ) =>
      PathCmd.line (add (rotate
        ⟨-(if clockwise then (1 : ℝ) else -1) * (size.x / 2) * ((i : ℝ) * (4 / acc)),
         size.y / 2 * hybridial_squircular_quadrant_explicit ((i : ℝ) * (4 / acc))
             (if exponent.x < exponent.y then ⟨exponent.y, exponent.x⟩ else exponent)⟩
        (if exponent.x < exponent.y then rotation + π / 2 else rotation)) center)) ++
    (descIdx acc).map (fun (i : ℕ) =>
      PathCmd.line (add (rotate
        ⟨-(if clockwise then (1 : ℝ) else -1) * (size.x / 2) * ((i : ℝ) * (4 / acc)),
         -(size.y / 2) * hybridial_squircular_quadrant_explicit ((i : ℝ) * (4 / acc))
             (if exponent.x < exponent.y then ⟨exponent.y, exponent.x⟩ else exponent)⟩
        (if exponent.x < exponent.y then rotation + π / 2 else rotation)) center)))
  ++ [PathCmd.close]

/-- The public entry point (`squirc` in mod.ts).  The scalar/`Point`
polymorphism of the `exponent` parameter is the sum type; a scalar `none` is
the JavaScript `Infinity`. -/
noncomputable def squirc (exponent : Option ℝ ⊕ Pt) (size : Pt) (center : Pt) (rotation : ℝ)
    (clockwise : Bool) (acc : ℕ) : List PathCmd :=
  let bb0 : List Pt :=
    [⟨-size.x / 2, -size.y / 2⟩, ⟨size.x / 2, -size.y / 2⟩,
     ⟨size.x / 2, size.y / 2⟩, ⟨-size.x / 2, size.y / 2⟩].map
      (fun p => add (rotate p rotation) center)
  let ec0 : List Pt :=
    [⟨0, -size.y / 2⟩, ⟨size.x / 2, 0⟩, ⟨0, size.y / 2⟩, ⟨-size.x / 2, 0⟩].map
      (fun p => add (rotate p rotation) center)
  let bb := if clockwise then bb0 else bb0.reverse
  let ec := if clockwise then ec0 else ec0.reverse
  match exponent with
  | Sum.inl e => squirc_simple e size center rotation clockwise bb ec acc
  | Sum.inr p =>
      if p.x = p.y then squirc_simple (some p.x) size center rotation clockwise bb ec acc
      else hybridial_squircle p size center rotation clockwise bb ec acc

/-- Points carried by one path command (the coordinate pairs that the
source renders into the path string for that command). -/
def cmdPoints : PathCmd → List Pt
  | PathCmd.move p => [p]
  | PathCmd.line p => [p]
  | PathCmd.arc _ _ _ p => [p]
  | PathCmd.close => []

/-- All vertices of a path, in traversal order. -/
def pathVertices : List PathCmd → List Pt
  | [] => []
  | c :: l => cmdPoints c ++ pathVertices l

theorem pathVertices_append (l₁ l₂ : List PathCmd) :
    pathVertices (l₁ ++ l₂) = pathVertices l₁ ++ pathVertices l₂ := by
  induction l₁ with
  | nil => rfl
  | cons c l ih => simp [pathVertices, ih]

theorem pathVertices_map_line {α : Type} (f : α → Pt) (l : List α) :
    pathVertices (l.map fun i => PathCmd.line (f i)) = l.map f := by
  induction l with
  | nil => rfl
  | cons a l ih => simp [pathVertices, cmdPoints, ih]

/-! Evaluation lemmas for the JavaScript remainder and for one unfolding step
of the reflection skeleton. -/

theorem jsRem_of_nonneg_lt {a b : ℝ} (hb : 0 < b) (h0 : 0 ≤ a) (h1 : a < b) :
    jsRem a b = a := by
  have : rtrunc (a / b) = 0 := by
    rw [rtrunc, if_pos (div_nonneg h0 hb.le)]
    exact Int.floor_eq_zero_iff.mpr ⟨div_nonneg h0 hb.le, (div_lt_one hb).mpr h1⟩
  rw [jsRem, this]
  simp

theorem jsRem_of_neg {a b : ℝ} (hb : 0 < b) (h0 : -b < a) (h1 : a < 0) :
    jsRem a b = a := by
  have hd : a / b < 0 := div_neg_of_neg_of_pos h1 hb
  have : rtrunc (a / b) = 0 := by
    rw [rtrunc, if_neg (not_le.mpr hd)]
    refine Int.ceil_eq_zero_iff.mpr ⟨?_, hd.le⟩
    have : (-1 : ℝ) < a / b := by
      rw [show (-1 : ℝ) = -b / b by field_simp]
      exact div_lt_div_of_pos_right h0 hb
    simpa using this
  rw [jsRem, this]
  simp

theorem jsRem_of_ge {a b : ℝ} (hb : 0 < b) (h0 : b ≤ a) (h1 : a < 2 * b) :
    jsRem a b = a - b := by
  have : rtrunc (a / b) = 1 := by
    rw [rtrunc, if_pos (div_nonneg (hb.le.trans h0) hb.le)]
    rw [Int.floor_eq_iff]
    constructor
    · simpa using (one_le_div hb).mpr h0
    · push_cast
      rw [div_lt_iff hb]
      linarith
  rw [jsRem, this]
  push_cast
  ring

/-- One step of the reflection skeleton on a first-quadrant angle. -/
theorem reflCos_q1 (g : ℝ → ℝ) (n : ℕ) {a : ℝ} (h0 : 0 ≤ a) (h1 : a ≤ π / 2) :
    reflCos g (n + 1) a = g a := by
  have hpi := pi_pos
  have hrem : jsRem a (2 * π) = a :=
    jsRem_of_nonneg_lt (by linarith) h0 (by linarith)
  simp only [reflCos, hrem]
  rw [if_neg (not_lt.mpr h0), if_neg (not_lt.mpr h1)]

/-- One step of the reflection skeleton on a negative angle above `-2π`. -/
theorem reflCos_neg (g : ℝ → ℝ) (n : ℕ) {a : ℝ} (h0 : -(2 * π) < a) (h1 : a < 0) :
    reflCos g (n + 1) a = reflCos g n (-a) := by
  have hpi := pi_pos
  have hrem : jsRem a (2 * π) = a := jsRem_of_neg (by linarith) h0 h1
  simp only [reflCos, hrem]
  rw [if_pos h1]

/-- One step of the reflection skeleton on an angle in `(π/2, 2π)`. -/
theorem reflCos_mid (g : ℝ → ℝ) (n : ℕ) {a : ℝ} (h0 : π / 2 < a) (h1 : a < 2 * π) :
    reflCos g (n + 1) a = -reflCos g n (π - a) := by
  have hpi := pi_pos
  have hrem : jsRem a (2 * π) = a :=
    jsRem_of_nonneg_lt (by linarith) (by linarith) h1
  simp only [reflCos, hrem]
  rw [if_neg (by linarith), if_pos h0]

/-- One step of the reflection skeleton on an angle in `[2π, 2π + π/2)`:
the remainder wraps once and lands in the first quadrant. -/
theorem reflCos_wrap (g : ℝ → ℝ) (n : ℕ) {a : ℝ} (h0 : 2 * π ≤ a)
    (h1 : a < 2 * π + π / 2) : reflCos g (n + 1) a = g (a - 2 * π) := by
  have hpi := pi_pos
  have hrem : jsRem a (2 * π) = a - 2 * π :=
    jsRem_of_ge (by linarith) h0 (by linarith)
  simp only [reflCos, hrem]
  rw [if_neg (by linarith), if_neg (by push_neg; linarith)]

/-- The reflection skeleton is invariant under adding a full turn, for any
first-quadrant core, on the angle range `(-2π, π/2)` that the sampling loops
produce — except at the two axis angles `-π/2` and `-3π/2`, where the exact
real-number reduction is singular. -/
theorem reflCos_two_pi (g : ℝ → ℝ) (n : ℕ) {x : ℝ} (hl : -(2 * π) < x) (hu : x < π / 2)
    (h3 : x ≠ -(π / 2)) (h4 : x ≠ -(3 * π / 2)) :
    reflCos g (n + 5) (x + 2 * π) = reflCos g (n + 5) x := by
  have hpi := pi_pos
  rcases le_or_lt 0 x with h | h
  · rw [reflCos_wrap g (n + 4) (by linarith) (by linarith),
      reflCos_q1 g (n + 4) h (by linarith), show x + 2 * π - 2 * π = x by ring]
  rcases lt_trichotomy x (-(π / 2)) with hA | hA | hA
  · rcases lt_trichotomy x (-π) with hB | hB | hB
    · rcases lt_trichotomy x (-(3 * π / 2)) with hC | hC | hC
      · -- -2π < x < -3π/2
        rw [reflCos_q1 g (n + 4) (by linarith) (by linarith)]
        rw [reflCos_neg g (n + 4) hl h]
        rw [reflCos_mid g (n + 3) (by linarith) (by linarith)]
        rw [show π - -x = π + x + 2 * π - 2 * π by ring, show π + x + 2 * π - 2 * π = π + x by ring]
        rw [reflCos_neg g (n + 2) (by linarith) (by linarith)]
        rw [show -(π + x) = -π - x by ring]
        rw [reflCos_mid g (n + 1) (by linarith) (by linarith)]
        rw [show π - (-π - x) = 2 * π + x by ring]
        rw [reflCos_q1 g n (by linarith) (by linarith)]
        rw [show 2 * π + x = x + 2 * π by ring, neg_neg]
      · exact absurd hC h4
      · -- -3π/2 < x < -π
        rw [reflCos_mid g (n + 4) (by linarith) (by linarith)]
        rw [show π - (x + 2 * π) = -π - x by ring]
        rw [reflCos_q1 g (n + 3) (by linarith) (by linarith)]
        rw [reflCos_neg g (n + 4) hl h]
        rw [reflCos_mid g (n + 3) (by linarith) (by linarith)]
        rw [show π - -x = π + x by ring]
        rw [reflCos_neg g (n + 2) (by linarith) (by linarith)]
        rw [show -(π + x) = -π - x by ring]
        rw [reflCos_q1 g (n + 1) (by linarith) (by linarith)]
    · -- x = -π
      subst hB
      rw [show -π + 2 * π = π by ring]
      rw [reflCos_mid g (n + 4) (by linarith) (by linarith)]
      rw [show π - π = (0 : ℝ) by ring]
      rw [reflCos_q1 g (n + 3) le_rfl (by linarith)]
      rw [reflCos_neg g (n + 4) (by linarith) (by linarith)]
      rw [neg_neg]
      rw [reflCos_mid g (n + 3) (by linarith) (by linarith)]
      rw [show π - π = (0 : ℝ) by ring]
      rw [reflCos_q1 g (n + 2) le_rfl (by linarith)]
    · -- -π < x < -π/2
      rw [reflCos_mid g (n + 4) (by linarith) (by linarith)]
      rw [show π - (x + 2 * π) = -π - x by ring]
      rw [reflCos_neg g (n + 3) (by linarith) (by linarith)]
      rw [show -(-π - x) = π + x by ring]
      rw [reflCos_q1 g (n + 2) (by linarith) (by linarith)]
      rw [reflCos_neg g (n + 4) hl h]
      rw [reflCos_mid g (n + 3) (by linarith) (by linarith)]
      rw [show π - -x = π + x by ring]
      rw [reflCos_q1 g (n + 2) (by linarith) (by linarith)]
  · exact absurd hA h3
  · -- -π/2 < x < 0
    rw [reflCos_mid g (n + 4) (by linarith) (by linarith)]
    rw [show π - (x + 2 * π) = -π - x by ring]
    rw [reflCos_neg g (n + 3) (by linarith) (by linarith)]
    rw [show -(-π - x) = π + x by ring]
    rw [reflCos_mid g (n + 2) (by linarith) (by linarith)]
    rw [show π - (π + x) = -x by ring]
    rw [reflCos_q1 g (n + 1) (by linarith) (by linarith)]
    rw [reflCos_neg g (n + 4) (by linarith) h]
    rw [reflCos_q1 g (n + 3) (by linarith) (by linarith)]
    rw [neg_neg]

/-- Under `tan 0 = 0`, the Newton iteration of the anisotropic cosine stays
at its initial guess 1: the residual is exactly zero there. -/
theorem newtonIter_zero_tan (ex ey : ℝ) (hy : ey ≠ 0) :
    ∀ n, newtonIter 0 ex ey n = 1 := by
  intro n
  induction n with
  | zero => rfl
  | succ n ih =>
    simp only [newtonIter, ih, newton_f, newton_df]
    rw [Real.one_rpow, zero_mul, Real.zero_rpow hy]
    simp

/-- Property of a path: one move command, then only line commands, then the
close command. -/
def MoveLinesClose (l : List PathCmd) : Prop :=
  ∃ p mid, l = PathCmd.move p :: mid ++ [PathCmd.close] ∧
    ∀ c ∈ mid, ∃ q, c = PathCmd.line q

/-- Property of a path: one move command followed by exactly two arc
commands with the same radii and sweep flag (and nothing else — in
particular no close command). -/
def MoveTwoArcs (l : List PathCmd) : Prop :=
  ∃ p r₁ r₂ s q₁ q₂,
    l = [PathCmd.move p, PathCmd.arc r₁ r₂ s q₁, PathCmd.arc r₁ r₂ s q₂]

/-- The dispatched case of an exponent argument that reaches the exact
circle branch: the scalar 2, or a pair that collapses to it. -/
def CollapsedCircle : Option ℝ ⊕ Pt → Prop
  | Sum.inl (some e) => e = 2
  | Sum.inl none => False
  | Sum.inr p => p.x = p.y ∧ p.x = 2

/-- C5: a `Point` exponent with equal components produces the very same
command list as the scalar exponent — the generator collapses the pair to
the scalar before dispatching, so the outputs are identical (not merely
within tolerance). -/
theorem claim_C5_equal_pair_collapses (e : ℝ) (size center : Pt) (rotation : ℝ)
    (clockwise : Bool) (acc : ℕ) :
    squirc (Sum.inr ⟨e, e⟩) size center rotation clockwise acc =
      squirc (Sum.inl (some e)) size center rotation clockwise acc := by
  simp [squirc]

/-- C7: for strictly positive exponent components, the anisotropic
Newton-solved cosine at angle 0 is exactly 1: the residual
`f(1) = 1^ex + (tan 0 · 1)^ey - 1` vanishes, so all five Newton steps leave
the initial guess 1 unchanged. -/
theorem claim_C7_newton_at_zero (ex ey : ℝ) (hx : 0 < ex) (hy : 0 < ey) :
    hybridial_squircular_cos 0 ⟨ex, ey⟩ = 1 := by
  have h2 : (0 : ℝ) ≤ π / 2 := by positivity
  unfold hybridial_squircular_cos
  rw [show (8 : ℕ) = 7 + 1 from rfl, reflCos_q1 _ 7 le_rfl h2]
  unfold hybridialCosCore
  rw [Real.tan_zero]
  exact newtonIter_zero_tan ex ey hy.ne' 5

theorem claim_C7_newton_at_zero_witness : hybridial_squircular_cos 0 ⟨2, 3⟩ = 1 :=
  claim_C7_newton_at_zero 2 3 (by norm_num) (by norm_num)

/-- C8, counterexample: with accuracy 5 the ascending quadrant loop
`for (let i = 1; i < accuracy/4; i++)` executes once (i = 1 < 1.25), not
`⌊5/4⌋ - 1 = 0` times as the claim states. -/
theorem claim_C8_counterexample : (ascIdx 5).length ≠ 5 / 4 - 1 := by decide

/-- C8, amended: for integer accuracy ≥ 4 the ascending quadrant walk
samples `x = i · (4/accuracy)` for `i = 1, …, ⌈accuracy/4⌉ - 1` — that is,
in `⌈accuracy/4⌉ - 1` steps (which equals `⌊accuracy/4⌋ - 1` only when 4
divides the accuracy) — and every sampled x is strictly less than 1. -/
theorem claim_C8_amended (acc : ℕ) (h : 4 ≤ acc) :
    (ascIdx acc).length = (acc + 3) / 4 - 1 ∧
      ∀ i ∈ ascIdx acc, (i : ℝ) * (4 / acc) < 1 := by
  constructor
  · simp [ascIdx]
  · intro i hi
    obtain ⟨-, h2⟩ := mem_ascIdx.mp hi
    have hacc : (0 : ℝ) < acc := by
      have : 0 < acc := by omega
      exact_mod_cast this
    calc (i : ℝ) * (4 / acc) = (4 * i) / acc := by ring
    _ < 1 := (div_lt_one hacc).mpr (by exact_mod_cast h2)

theorem claim_C8_amended_witness :
    (ascIdx 101).length = (101 + 3) / 4 - 1 ∧
      ∀ i ∈ ascIdx 101, (i : ℝ) * (4 / 101) < 1 := by
  have h := claim_C8_amended 101 (by norm_num)
  exact_mod_cast h

/-- C2, counterexample: for the counter-clockwise general case (exponent 3,
size 2×2, center origin, no rotation) the path starts at the top edge
midpoint (0, -1) — because `edgeCenters` has already been reversed, index 3
is the original top midpoint — and not at the left edge midpoint (-1, 0) as
the claim states. -/
theorem claim_C2_counterexample :
    (squirc (Sum.inl (some 3)) ⟨2, 2⟩ ⟨0, 0⟩ 0 false 5).headD PathCmd.close =
      PathCmd.move (add (rotate ⟨0, -(2 : ℝ) / 2⟩ 0) ⟨0, 0⟩) ∧
    PathCmd.move (add (rotate ⟨0, -(2 : ℝ) / 2⟩ 0) ⟨0, 0⟩) ≠
      PathCmd.move (add (rotate ⟨-(2 : ℝ) / 2, 0⟩ 0) ⟨0, 0⟩) := by
  constructor
  · norm_num [squirc, squirc_simple, add, rotate, List.getD]
  · simp only [ne_eq, PathCmd.move.injEq, add, rotate, Pt.mk.injEq]
    norm_num

/-- C2, amended: for every finite scalar exponent other than 1 and 2, and
for every anisotropic pair with unequal components (both regimes), the move
point is the rotated-and-translated TOP edge midpoint for BOTH windings:
in the counter-clockwise case the arrays are reversed first, so the
`edgeCenters[3]` read by the source is again the original top midpoint. -/
theorem claim_C2_amended :
    (∀ (e : ℝ) (size center : Pt) (rotation : ℝ) (clockwise : Bool) (acc : ℕ),
        e ≠ 1 → e ≠ 2 →
        (squirc (Sum.inl (some e)) size center rotation clockwise acc).headD PathCmd.close =
          PathCmd.move (add (rotate ⟨0, -size.y / 2⟩ rotation) center)) ∧
    (∀ (p size center : Pt) (rotation : ℝ) (clockwise : Bool) (acc : ℕ),
        p.x ≠ p.y →
        (squirc (Sum.inr p) size center rotation clockwise acc).headD PathCmd.close =
          PathCmd.move (add (rotate ⟨0, -size.y / 2⟩ rotation) center)) := by
  constructor
  · intro e size center rotation clockwise acc h1 h2
    cases clockwise <;>
      simp [squirc, squirc_simple, h1, h2, List.getD]
  · intro p size center rotation clockwise acc hp
    cases clockwise <;>
      simp [squirc, hybridial_squircle, hp, List.getD]

theorem claim_C2_amended_witness :
    (squirc (Sum.inl (some 3)) ⟨2, 2⟩ ⟨0, 0⟩ 0 false 5).headD PathCmd.close =
      PathCmd.move (add (rotate ⟨0, -(⟨2, 2⟩ : Pt).y / 2⟩ 0) ⟨0, 0⟩) :=
  claim_C2_amended.1 3 ⟨2, 2⟩ ⟨0, 0⟩ 0 false 5 (by norm_num) (by norm_num)

/-- A path of the shape move–lines–close satisfies `MoveLinesClose`. -/
theorem moveLinesClose_of (p : Pt) (mid : List PathCmd)
    (h : ∀ c ∈ mid, ∃ q, c = PathCmd.line q) :
    MoveLinesClose (PathCmd.move p :: mid ++ [PathCmd.close]) :=
  ⟨p, mid, rfl, h⟩

/-- C3, counterexample: for exponent exactly 2 the returned path does NOT
end with a close command — the source's circle branch returns the two arc
commands without appending "Z". -/
theorem claim_C3_counterexample :
    (squirc (Sum.inl (some 2)) ⟨2, 2⟩ ⟨0, 0⟩ 0 true 5).getLast? ≠
      some PathCmd.close := by
  norm_num [squirc, squirc_simple, List.getD, List.getLast?]
  exact fun h => PathCmd.noConfusion h

/-- C3, amended: for every input the path is one move command followed by
line commands and a final close command — except when the (collapsed)
exponent is exactly 2, in which case it is one move command followed by two
arc commands with no closing instruction (the second arc returns to the
start point, so the traced curve is still closed geometrically). -/
theorem claim_C3_amended (exponent : Option ℝ ⊕ Pt) (size center : Pt) (rotation : ℝ)
    (clockwise : Bool) (acc : ℕ) :
    (CollapsedCircle exponent ∧
        MoveTwoArcs (squirc exponent size center rotation clockwise acc)) ∨
    (¬ CollapsedCircle exponent ∧
        MoveLinesClose (squirc exponent size center rotation clockwise acc)) := by
  rcases exponent with (_ | e) | p
  · -- scalar Infinity: the square case
    refine Or.inr ⟨by simp [CollapsedCircle], ?_⟩
    simp only [squirc, squirc_simple]
    refine moveLinesClose_of _ _ ?_
    intro c hc
    simp only [List.mem_map] at hc
    obtain ⟨q, -, rfl⟩ := hc
    exact ⟨q, rfl⟩
  · -- scalar finite exponent
    by_cases h1 : e = 1
    · refine Or.inr ⟨by simp [CollapsedCircle, h1], ?_⟩
      subst h1
      simp only [squirc, squirc_simple, if_pos rfl]
      refine moveLinesClose_of _ _ ?_
      intro c hc
      simp only [List.mem_map] at hc
      obtain ⟨q, -, rfl⟩ := hc
      exact ⟨q, rfl⟩
    · by_cases h2 : e = 2
      · subst h2
        refine Or.inl ⟨rfl, ?_⟩
        simp only [squirc, squirc_simple, if_neg h1, if_pos rfl]
        exact ⟨_, _, _, _, _, _, rfl⟩
      · refine Or.inr ⟨by simp [CollapsedCircle, h2], ?_⟩
        simp only [squirc, squirc_simple, if_neg h1, if_neg h2]
        refine moveLinesClose_of _ _ ?_
        intro c hc
        simp only [List.mem_map] at hc
        obtain ⟨q, -, rfl⟩ := hc
        exact ⟨_, rfl⟩
  · -- pair exponent
    by_cases hp : p.x = p.y
    · by_cases h1 : p.x = 1
      · refine Or.inr ⟨by simp [CollapsedCircle, h1], ?_⟩
        simp only [squirc, squirc_simple, if_pos hp, if_pos h1]
        refine moveLinesClose_of _ _ ?_
        intro c hc
        simp only [List.mem_map] at hc
        obtain ⟨q, -, rfl⟩ := hc
        exact ⟨q, rfl⟩
      · by_cases h2 : p.x = 2
        · refine Or.inl ⟨⟨hp, h2⟩, ?_⟩
          simp only [squirc, squirc_simple, if_pos hp, if_neg h1, if_pos h2]
          exact ⟨_, _, _, _, _, _, rfl⟩
        · refine Or.inr ⟨by simp [CollapsedCircle, h2], ?_⟩
          simp only [squirc, squirc_simple, if_pos hp, if_neg h1, if_neg h2]
          refine moveLinesClose_of _ _ ?_
          intro c hc
          simp only [List.mem_map] at hc
          obtain ⟨q, -, rfl⟩ := hc
          exact ⟨_, rfl⟩
    · -- genuinely anisotropic: both hybridial regimes close with Z
      refine Or.inr ⟨by simp [CollapsedCircle, hp], ?_⟩
      simp only [squirc, hybridial_squircle, if_neg hp]
      refine moveLinesClose_of _ _ ?_
      intro c hc
      by_cases hreg : 3 / 2 ≤ p.x ∧ 3 / 2 ≤ p.y
      · rw [if_pos hreg] at hc
        simp only [List.mem_map] at hc
        obtain ⟨q, -, rfl⟩ := hc
        exact ⟨_, rfl⟩
      · rw [if_neg hreg] at hc
        simp only [List.mem_append, List.mem_map] at hc
        obtain ((⟨q, -, rfl⟩ | ⟨q, -, rfl⟩) | ⟨q, -, rfl⟩) | ⟨q, -, rfl⟩ := hc <;>
          exact ⟨_, rfl⟩

/-- C4, counterexample: with `clockwise = false` the circle path does not
sweep from the top edge midpoint: the reversed `edgeCenters` array makes the
arc endpoints the LEFT and RIGHT edge midpoints.  Here (exponent 2, size
2×2, center origin, no rotation) the path starts at (-1, 0), not (0, -1). -/
theorem claim_C4_counterexample :
    (squirc (Sum.inl (some 2)) ⟨2, 2⟩ ⟨0, 0⟩ 0 false 5).headD PathCmd.close =
      PathCmd.move (add (rotate ⟨-(2 : ℝ) / 2, 0⟩ 0) ⟨0, 0⟩) ∧
    PathCmd.move (add (rotate ⟨-(2 : ℝ) / 2, 0⟩ 0) ⟨0, 0⟩) ≠
      PathCmd.move (add (rotate ⟨0, -(2 : ℝ) / 2⟩ 0) ⟨0, 0⟩) := by
  constructor
  · norm_num [squirc, squirc_simple, add, rotate, List.getD]
  · simp only [ne_eq, PathCmd.move.injEq, add, rotate, Pt.mk.injEq]
    norm_num

/-- C4, amended: for exponent exactly 2 the output is exactly two
elliptical-arc commands with radii `size.x/2` and `size.y/2` and the winding
flag as sweep flag; when clockwise they sweep from the top edge midpoint
through the bottom edge midpoint and back (so the claimed concrete scenario
`generatePath(2, Point(2,2), Point(0,0))`, which defaults to clockwise,
holds), but when counter-clockwise they sweep from the LEFT edge midpoint
through the RIGHT edge midpoint and back. -/
theorem claim_C4_amended (size center : Pt) (rotation : ℝ) (clockwise : Bool) (acc : ℕ) :
    squirc (Sum.inl (some 2)) size center rotation clockwise acc =
      if clockwise then
        [PathCmd.move (add (rotate ⟨0, -size.y / 2⟩ rotation) center),
         PathCmd.arc (size.x / 2) (size.y / 2) true (add (rotate ⟨0, size.y / 2⟩ rotation) center),
         PathCmd.arc (size.x / 2) (size.y / 2) true (add (rotate ⟨0, -size.y / 2⟩ rotation) center)]
      else
        [PathCmd.move (add (rotate ⟨-size.x / 2, 0⟩ rotation) center),
         PathCmd.arc (size.x / 2) (size.y / 2) false (add (rotate ⟨size.x / 2, 0⟩ rotation) center),
         PathCmd.arc (size.x / 2) (size.y / 2) false (add (rotate ⟨-size.x / 2, 0⟩ rotation) center)] := by
  cases clockwise <;> norm_num [squirc, squirc_simple, List.getD]

/-- C1: evaluation of the low-exponent swap at a non-square size.  With
exponent pair (1, 2) (so `exponent.x < exponent.y` triggers the swap to
(2, 1) with rotation bumped by π/2), size 4×2, center (0, 0), rotation 0,
clockwise, accuracy 8, the first sampled point of the path is (3/4, 1); but
that point — already expressed in the original (un-rotated, un-translated)
frame since rotation and center are 0 — does NOT satisfy the original
anisotropic superellipse equation `|2x/size.x|^ex + |2y/size.y|^ey = 1`:
the residual is 11/8.  The π/2 rotation compensates the exponent swap only
when `size.x = size.y`, so the swap DOES change the rendered shape here,
contradicting the spec's stated intent. -/
theorem claim_C1_swap_changes_shape :
    (squirc (Sum.inr ⟨1, 2⟩) ⟨4, 2⟩ ⟨0, 0⟩ 0 true 8).getD 1 PathCmd.close =
      PathCmd.line ⟨3 / 4, 1⟩ ∧
    |2 * ((3 : ℝ) / 4) / 4| ^ ((1 : ℝ)) + |2 * (1 : ℝ) / 2| ^ ((2 : ℝ)) ≠ 1 := by
  constructor
  · have hasc : ascIdx 8 = [1] := rfl
    have hdesc : descIdx 8 = [2, 1] := rfl
    have hq : hybridial_squircular_quadrant_explicit ((1 : ℝ) / 2) ⟨(2 : ℝ), (1 : ℝ)⟩ = 3 / 4 := by
      rw [hybridial_squircular_quadrant_explicit]
      rw [show (1 : ℝ) - ((1 : ℝ) / 2) ^ ((⟨(2 : ℝ), (1 : ℝ)⟩ : Pt).x) = 3 / 4 by
        rw [show ((⟨(2 : ℝ), (1 : ℝ)⟩ : Pt).x) = (2 : ℝ) from rfl, Real.rpow_two]; norm_num]
      rw [show (1 : ℝ) / ((⟨(2 : ℝ), (1 : ℝ)⟩ : Pt).y) = 1 by norm_num [Pt.y]]
      exact Real.rpow_one _
    norm_num [squirc, hybridial_squircle, hasc, hdesc, List.getD, rotate, add, hq]
  · rw [Real.rpow_one, Real.rpow_two]
    norm_num

theorem pathVertices_nil : pathVertices [] = [] := rfl

theorem pathVertices_cons (c : PathCmd) (l : List PathCmd) :
    pathVertices (c :: l) = cmdPoints c ++ pathVertices l := rfl

/-- Convenience form of `reflCos_two_pi` at the fuel 8 used by the two
cosine evaluators. -/
theorem reflCos_eq_of_shift (g : ℝ → ℝ) {y z : ℝ} (hyz : y = z + 2 * π)
    (hl : -(2 * π) < z) (hu : z < π / 2) (h3 : z ≠ -(π / 2)) (h4 : z ≠ -(3 * π / 2)) :
    reflCos g 8 y = reflCos g 8 z := by
  rw [hyz]
  exact reflCos_two_pi g 3 hl hu h3 h4

/-- Facts about the sample angle increment `j · (2π/accuracy)` for an
interior sample index `1 ≤ j ≤ accuracy - 1` and odd accuracy: it lies
strictly between 0 and 2π and avoids the axis angles π/2, π and 3π/2. -/
theorem angle_facts {acc j : ℕ} (hacc : Odd acc) (hj1 : 1 ≤ j) (hj2 : j ≤ acc - 1) :
    0 < (j : ℝ) * (2 * π / acc) ∧ (j : ℝ) * (2 * π / acc) < 2 * π ∧
    (j : ℝ) * (2 * π / acc) ≠ π ∧ (j : ℝ) * (2 * π / acc) ≠ π / 2 ∧
    (j : ℝ) * (2 * π / acc) ≠ 3 * π / 2 := by
  obtain ⟨k, hk⟩ := hacc
  have haccpos : 0 < acc := by omega
  have hacc0 : ((acc : ℕ) : ℝ) ≠ 0 := Nat.cast_ne_zero.mpr (by omega)
  have haccr : (0 : ℝ) < acc := by exact_mod_cast haccpos
  have hpi := pi_pos
  have hθ : (0 : ℝ) < 2 * π / acc := by positivity
  have hj1r : (1 : ℝ) ≤ j := by exact_mod_cast hj1
  have hjacc : (j : ℝ) < acc := by
    have : j < acc := by omega
    exact_mod_cast this
  have haccθ : (acc : ℝ) * (2 * π / acc) = 2 * π := by field_simp
  refine ⟨by positivity, ?_, ?_, ?_, ?_⟩
  · calc (j : ℝ) * (2 * π / acc) < (acc : ℝ) * (2 * π / acc) :=
        mul_lt_mul_of_pos_right hjacc hθ
    _ = 2 * π := haccθ
  · intro h
    field_simp at h
    have h2 : ((2 * j : ℕ) : ℝ) * π = ((acc : ℕ) : ℝ) * π := by push_cast; linarith
    have h3 : (2 * j : ℕ) = acc := by exact_mod_cast mul_right_cancel₀ pi_ne_zero h2
    omega
  · intro h
    field_simp at h
    have h2 : ((4 * j : ℕ) : ℝ) * π = ((acc : ℕ) : ℝ) * π := by push_cast; linarith
    have h3 : (4 * j : ℕ) = acc := by exact_mod_cast mul_right_cancel₀ pi_ne_zero h2
    omega
  · intro h
    field_simp at h
    have h2 : ((4 * j : ℕ) : ℝ) * π = ((3 * acc : ℕ) : ℝ) * π := by push_cast; linarith
    have h3 : (4 * j : ℕ) = 3 * acc := by exact_mod_cast mul_right_cancel₀ pi_ne_zero h2
    omega

/-- Reversing a map over `1, …, n` is the map of the index reflection
`i ↦ n + 1 - i`. -/
theorem map_range'_reverse {α : Type} (f g : ℕ → α) (n : ℕ)
    (h : ∀ i, 1 ≤ i → i ≤ n → g i = f (n + 1 - i)) :
    (List.range' 1 n).map g = ((List.range' 1 n).map f).reverse := by
  apply List.ext_getElem
  · simp
  · intro k h1 h2
    simp only [List.length_map, List.length_range'] at h1
    simp only [List.getElem_map, List.getElem_reverse, List.length_map, List.length_range']
    rw [List.getElem_range'_1, List.getElem_range'_1]
    rw [h (1 + k) (by omega) (by omega)]
    congr 1
    omega

/-- Vertex list of the general-case isotropic path: the top edge midpoint
followed by the `accuracy - 1` sampled points. -/
theorem squirc_general_vertices (e : ℝ) (size center : Pt) (rotation : ℝ)
    (clockwise : Bool) (acc : ℕ) (h1 : e ≠ 1) (h2 : e ≠ 2) :
    pathVertices (squirc (Sum.inl (some e)) size center rotation clockwise acc) =
      add (rotate ⟨0, -size.y / 2⟩ rotation) center ::
        (List.range' 1 (acc - 1)).map (fun (i : ℕ) =>
          add (rotate
            ⟨size.x / 2 * squirc_cos
                (if clockwise then π / 2 - (i : ℝ) * (2 * π / acc)
                 else π / 2 + (i : ℝ) * (2 * π / acc)) e,
             size.y / 2 * (-squirc_sin
                (if clockwise then π / 2 - (i : ℝ) * (2 * π / acc)
                 else π / 2 + (i : ℝ) * (2 * π / acc)) e)⟩ rotation) center) := by
  cases clockwise <;>
    simp [squirc, squirc_simple, h1, h2, List.getD, pathVertices_cons, cmdPoints,
      pathVertices_append, pathVertices_map_line, pathVertices_nil]

/-- Vertex list of the anisotropic angular-regime path: the top edge
midpoint followed by the `accuracy - 1` sampled points. -/
theorem hybridial_angular_vertices (p : Pt) (size center : Pt) (rotation : ℝ)
    (clockwise : Bool) (acc : ℕ) (hp : p.x ≠ p.y) (hreg : 3 / 2 ≤ p.x ∧ 3 / 2 ≤ p.y) :
    pathVertices (squirc (Sum.inr p) size center rotation clockwise acc) =
      add (rotate ⟨0, -size.y / 2⟩ rotation) center ::
        (List.range' 1 (acc - 1)).map (fun (i : ℕ) =>
          add (rotate
            ⟨size.x / 2 * hybridial_squircular_cos
                (if clockwise then π / 2 - (i : ℝ) * (2 * π / acc)
                 else π / 2 + (i : ℝ) * (2 * π / acc)) p,
             size.y / 2 * (-hybridial_squircular_sin
                (if clockwise then π / 2 - (i : ℝ) * (2 * π / acc)
                 else π / 2 + (i : ℝ) * (2 * π / acc)) p)⟩ rotation) center) := by
  cases clockwise <;>
    simp [squirc, hybridial_squircle, hp, hreg, List.getD, pathVertices_cons, cmdPoints,
      pathVertices_append, pathVertices_map_line, pathVertices_nil]

/-- Flipping the winding replaces the sample angle `π/2 + i·θ` by
`π/2 - (acc - i)·θ` (θ = 2π/accuracy); for odd accuracy the two reduce to
the same first-quadrant core evaluation. -/
theorem flip_cos_arg (g : ℝ → ℝ) {acc i : ℕ} (hacc : Odd acc) (hi1 : 1 ≤ i)
    (hi2 : i ≤ acc - 1) :
    reflCos g 8 (π / 2 + (i : ℝ) * (2 * π / acc)) =
      reflCos g 8 (π / 2 - ((acc - i : ℕ) : ℝ) * (2 * π / acc)) := by
  have hpi := pi_pos
  obtain ⟨k, hk⟩ := id hacc
  have hile : i ≤ acc := by omega
  have hcast : ((acc - i : ℕ) : ℝ) = (acc : ℝ) - i := by
    push_cast [Nat.cast_sub hile]
    ring
  have hacc0 : ((acc : ℕ) : ℝ) ≠ 0 := Nat.cast_ne_zero.mpr (by omega)
  have haccθ : (acc : ℝ) * (2 * π / acc) = 2 * π := by field_simp
  obtain ⟨hpos, hlt, hne1, -, -⟩ := angle_facts hacc (by omega : 1 ≤ acc - i)
    (by omega : acc - i ≤ acc - 1)
  apply reflCos_eq_of_shift g
  · rw [hcast]
    linear_combination haccθ
  · linarith [hlt]
  · linarith [hpos]
  · intro hcon
    exact hne1 (by linarith)
  · intro hcon
    exact hlt.ne (by linarith)

/-- Same flip for the sine argument `π/2 - angle`. -/
theorem flip_sin_arg (g : ℝ → ℝ) {acc i : ℕ} (hacc : Odd acc) (hi1 : 1 ≤ i)
    (hi2 : i ≤ acc - 1) :
    reflCos g 8 (π / 2 - (π / 2 + (i : ℝ) * (2 * π / acc))) =
      reflCos g 8 (π / 2 - (π / 2 - ((acc - i : ℕ) : ℝ) * (2 * π / acc))) := by
  have hpi := pi_pos
  obtain ⟨k, hk⟩ := id hacc
  have hile : i ≤ acc := by omega
  have hcast : ((acc - i : ℕ) : ℝ) = (acc : ℝ) - i := by
    push_cast [Nat.cast_sub hile]
    ring
  have hacc0 : ((acc : ℕ) : ℝ) ≠ 0 := Nat.cast_ne_zero.mpr (by omega)
  have haccθ : (acc : ℝ) * (2 * π / acc) = 2 * π := by field_simp
  obtain ⟨hpos, hlt, -, hne2, hne3⟩ := angle_facts hacc hi1 hi2
  refine (reflCos_eq_of_shift g ?_ ?_ ?_ ?_ ?_).symm
  · rw [hcast]
    linear_combination haccθ
  · linarith [hlt]
  · linarith [hpos]
  · intro hcon
    exact hne2 (by linarith)
  · intro hcon
    exact hne3 (by linarith)

/-- Vertex list of the anisotropic low-exponent path: the top edge midpoint
followed by the four quadrant walks. -/
theorem hybridial_low_vertices (p : Pt) (size center : Pt) (rotation : ℝ)
    (clockwise : Bool) (acc : ℕ) (hp : p.x ≠ p.y) (hreg : ¬(3 / 2 ≤ p.x ∧ 3 / 2 ≤ p.y)) :
    pathVertices (squirc (Sum.inr p) size center rotation clockwise acc) =
      add (rotate ⟨0, -size.y / 2⟩ rotation) center ::
      ((ascIdx acc).map (fun (i : ℕ) =>
        add (rotate
          ⟨(if clockwise then (1 : ℝ) else -1) * (size.x / 2) * ((i : ℝ) * (4 / acc)),
           -(size.y / 2) * hybridial_squircular_quadrant_explicit ((i : ℝ) * (4 / acc))
               (if p.x < p.y then ⟨p.y, p.x⟩ else p)⟩
          (if p.x < p.y then rotation + π / 2 else rotation)) center) ++
      ((descIdx acc).map (fun (i : ℕ) =>
        add (rotate
          ⟨(if clockwise then (1 : ℝ) else -1) * (size.x / 2) * ((i : ℝ) * (4 / acc)),
           size.y / 2 * hybridial_squircular_quadrant_explicit ((i : ℝ) * (4 / acc))
               (if p.x < p.y then ⟨p.y, p.x⟩ else p)⟩
          (if p.x < p.y then rotation + π / 2 else rotation)) center) ++
      ((ascIdx acc).map (fun (i : ℕ) =>
        add (rotate
          ⟨-(if clockwise then (1 : ℝ) else -1) * (size.x / 2) * ((i : ℝ) * (4 / acc)),
           size.y / 2 * hybridial_squircular_quadrant_explicit ((i : ℝ) * (4 / acc))
               (if p.x < p.y then ⟨p.y, p.x⟩ else p)⟩
          (if p.x < p.y then rotation + π / 2 else rotation)) center) ++
      (descIdx acc).map (fun (i : ℕ) =>
        add (rotate
          ⟨-(if clockwise then (1 : ℝ) else -1) * (size.x / 2) * ((i : ℝ) * (4 / acc)),
           -(size.y / 2) * hybridial_squircular_quadrant_explicit ((i : ℝ) * (4 / acc))
               (if p.x < p.y then ⟨p.y, p.x⟩ else p)⟩
          (if p.x < p.y then rotation + π / 2 else rotation)) center)))) := by
  cases clockwise <;>
    simp [squirc, hybridial_squircle, hp, hreg, List.getD, pathVertices_cons, cmdPoints,
      pathVertices_append, pathVertices_map_line, pathVertices_nil]

theorem pathVertices_map_line_id (l : List Pt) :
    pathVertices (l.map PathCmd.line) = l := by
  induction l with
  | nil => rfl
  | cons a l ih => simp [pathVertices_cons, cmdPoints, ih]

/-- C6, counterexample: for the circle case (exponent 2) flipping the
winding does NOT preserve the vertex set: counter-clockwise the arc
endpoints are the left/right edge midpoints, clockwise they are the
top/bottom midpoints.  Concretely (size 2×2, center origin, no rotation),
(-1, 0) is a vertex of the counter-clockwise path but not of the clockwise
one. -/
theorem claim_C6_counterexample :
    (add (rotate ⟨-(2 : ℝ) / 2, 0⟩ 0) ⟨0, 0⟩) ∈
      pathVertices (squirc (Sum.inl (some 2)) ⟨2, 2⟩ ⟨0, 0⟩ 0 false 5) ∧
    (add (rotate ⟨-(2 : ℝ) / 2, 0⟩ 0) ⟨0, 0⟩) ∉
      pathVertices (squirc (Sum.inl (some 2)) ⟨2, 2⟩ ⟨0, 0⟩ 0 true 5) := by
  constructor
  · norm_num [squirc, squirc_simple, pathVertices_cons, cmdPoints, pathVertices_nil,
      List.getD, add, rotate]
  · norm_num [squirc, squirc_simple, pathVertices_cons, cmdPoints, pathVertices_nil,
      List.getD, add, rotate, Pt.mk.injEq]

/-- C6, amended: flipping the winding flag yields the same vertex set in
reverse traversal order for the square and diamond cases (literally the
reversed list) and for all three sampled regimes (the same anchored cycle:
same starting vertex followed by the reversed tail), where for the two
angle-sampled regimes the accuracy is odd (an even accuracy would place a
sample on the y-axis, where the exact-real angle reduction is singular) and
for the quadrant-walk regime the accuracy is not divisible by 4 (otherwise
the two walk halves have different lengths and agree only up to the
duplicated axis point).  The claim is FALSE for the circle case (exponent
2), where flipping the winding replaces the top/bottom arc endpoints by the
left/right ones. -/
theorem claim_C6_amended :
    (∀ (size center : Pt) (rotation : ℝ) (acc : ℕ),
        pathVertices (squirc (Sum.inl none) size center rotation false acc) =
          (pathVertices (squirc (Sum.inl none) size center rotation true acc)).reverse) ∧
    (∀ (size center : Pt) (rotation : ℝ) (acc : ℕ),
        pathVertices (squirc (Sum.inl (some 1)) size center rotation false acc) =
          (pathVertices (squirc (Sum.inl (some 1)) size center rotation true acc)).reverse) ∧
    (∀ (e : ℝ) (size center : Pt) (rotation : ℝ) (acc : ℕ),
        Odd acc → e ≠ 1 → e ≠ 2 →
        ∃ h t,
          pathVertices (squirc (Sum.inl (some e)) size center rotation true acc) = h :: t ∧
          pathVertices (squirc (Sum.inl (some e)) size center rotation false acc) =
            h :: t.reverse) ∧
    (∀ (p size center : Pt) (rotation : ℝ) (acc : ℕ),
        Odd acc → p.x ≠ p.y → 3 / 2 ≤ p.x → 3 / 2 ≤ p.y →
        ∃ h t,
          pathVertices (squirc (Sum.inr p) size center rotation true acc) = h :: t ∧
          pathVertices (squirc (Sum.inr p) size center rotation false acc) =
            h :: t.reverse) ∧
    (∀ (p size center : Pt) (rotation : ℝ) (acc : ℕ),
        ¬(4 ∣ acc) → p.x ≠ p.y → ¬(3 / 2 ≤ p.x ∧ 3 / 2 ≤ p.y) →
        ∃ h t,
          pathVertices (squirc (Sum.inr p) size center rotation true acc) = h :: t ∧
          pathVertices (squirc (Sum.inr p) size center rotation false acc) =
            h :: t.reverse) := by
  refine ⟨?_, ?_, ?_, ?_, ?_⟩
  · -- square
    intro size center rotation acc
    simp [squirc, squirc_simple, pathVertices_cons, cmdPoints, pathVertices_append,
      pathVertices_map_line_id, pathVertices_nil, List.getD]
  · -- diamond
    intro size center rotation acc
    simp [squirc, squirc_simple, pathVertices_cons, cmdPoints, pathVertices_append,
      pathVertices_map_line_id, pathVertices_nil, List.getD]
  · -- isotropic general case
    intro e size center rotation acc hacc h1 h2
    obtain ⟨k, hk⟩ := id hacc
    refine ⟨_, _, squirc_general_vertices e size center rotation true acc h1 h2, ?_⟩
    rw [squirc_general_vertices e size center rotation false acc h1 h2]
    congr 1
    apply map_range'_reverse
    intro i hi1 hi2
    rw [show acc - 1 + 1 - i = acc - i by omega]
    have hC : squirc_cos (π / 2 + (i : ℝ) * (2 * π / acc)) e =
        squirc_cos (π / 2 - ((acc - i : ℕ) : ℝ) * (2 * π / acc)) e :=
      flip_cos_arg (squircCosCore e) hacc hi1 hi2
    have hS : squirc_sin (π / 2 + (i : ℝ) * (2 * π / acc)) e =
        squirc_sin (π / 2 - ((acc - i : ℕ) : ℝ) * (2 * π / acc)) e :=
      flip_sin_arg (squircCosCore e) hacc hi1 hi2
    simp only [Bool.false_eq_true, if_false, if_true, hC, hS]
  · -- anisotropic angular regime
    intro p size center rotation acc hacc hp hx hy
    obtain ⟨k, hk⟩ := id hacc
    refine ⟨_, _, hybridial_angular_vertices p size center rotation true acc hp ⟨hx, hy⟩, ?_⟩
    rw [hybridial_angular_vertices p size center rotation false acc hp ⟨hx, hy⟩]
    congr 1
    apply map_range'_reverse
    intro i hi1 hi2
    rw [show acc - 1 + 1 - i = acc - i by omega]
    have hC : hybridial_squircular_cos (π / 2 + (i : ℝ) * (2 * π / acc)) p =
        hybridial_squircular_cos (π / 2 - ((acc - i : ℕ) : ℝ) * (2 * π / acc)) p :=
      flip_cos_arg (hybridialCosCore p.x p.y) hacc hi1 hi2
    have hS : hybridial_squircular_sin (π / 2 + (i : ℝ) * (2 * π / acc)) p =
        hybridial_squircular_sin (π / 2 - ((acc - i : ℕ) : ℝ) * (2 * π / acc)) p :=
      flip_sin_arg (hybridialCosCore p.y p.x) hacc hi1 hi2
    simp only [Bool.false_eq_true, if_false, if_true, hC, hS]
  · -- anisotropic low-exponent regime
    intro p size center rotation acc hdvd hp hreg
    have hasc : ascIdx acc = List.range' 1 (acc / 4) := by
      rw [ascIdx]
      congr 1
      omega
    refine ⟨_, _, hybridial_low_vertices p size center rotation true acc hp hreg, ?_⟩
    rw [hybridial_low_vertices p size center rotation false acc hp hreg]
    congr 1
    rw [hasc]
    simp only [descIdx, hasc, List.map_reverse, List.reverse_append, List.reverse_reverse,
      List.append_assoc, Bool.false_eq_true, if_false, if_true, neg_neg, neg_one_mul,
      one_mul]

theorem claim_C6_amended_witness :
    ∃ h t,
      pathVertices (squirc (Sum.inl (some 3)) ⟨2, 2⟩ ⟨0, 0⟩ 0 true 5) = h :: t ∧
      pathVertices (squirc (Sum.inl (some 3)) ⟨2, 2⟩ ⟨0, 0⟩ 0 false 5) = h :: t.reverse :=
  claim_C6_amended.2.2.1 3 ⟨2, 2⟩ ⟨0, 0⟩ 0 5 ⟨2, rfl⟩ (by norm_num) (by norm_num)

end Squirc
